import Mathlib

/-!
Shallow embedding of the timeline-reconstruction and frame-partitioning core of
the video-frames-extractor repository (src/phase_csv.py, src/frame_extractor.py,
src/Extractor/Cataract1k.py, src/Extractor/cataract21_subvideo.py,
src/Extractor/cataract101_subvideo.py), together with theorems checking the
specification's claims about it.

Conventions of the embedding:
* frame indices are `ℤ` (the Python code does unbounded integer arithmetic);
* seconds and sampling rates are `ℚ` (the Python code uses floats; every
  computation relevant here is short arithmetic whose float and exact values
  agree on the concrete inputs used, and Python's `int()` truncation coincides
  with `Int.floor` on the nonnegative values that arise);
* filenames are `String`, built with the same concatenation as the f-strings;
* the bounded Python `for` loops become fuel-indexed structural recursion with
  the loop bound as fuel, so every definition is executable.
-/

namespace VideoFrames

/-! ### PhaseVocabulary: src/Extractor/Cataract1k.py, PHASE_MAPPING / map_phase_name -/

/-- The literal `PHASE_MAPPING` dictionary of src/Extractor/Cataract1k.py
(lines 9-21), as an association list in source order. -/
def PHASE_MAPPING : List (String × String) :=
  [("Viscoelastic", "Viscoelastic"),
   ("Capsulorhexis", "Capsulorhexis"),
   ("Hydrodissection", "Hydrodissection"),
   ("Phacoemulsification", "Phaco"),
   ("Irrigation/Aspiration", "IrrigationAspiration"),
   ("Capsule Pulishing", "CortexRemoval"),
   ("Lens Implantation", "LensImplantation"),
   ("Lens positioning", "LensPositioning"),
   ("Viscoelastic_Suction", "ViscoelasticSuction"),
   ("Tonifying/Antibiotics", "TonifyingAntibiotics"),
   ("Anterior_Chamber Flushing", "AnteriorChamberFlushing")]

/-- `map_phase_name` of src/Extractor/Cataract1k.py line 32-36:
`PHASE_MAPPING.get(phase_name, phase_name)` — look the raw name up,
returning the raw name itself when it is not a key. -/
def map_phase_name (phase_name : String) : String :=
  ((PHASE_MAPPING.lookup phase_name).getD phase_name)

/-! ### RunLengthCompressor: src/Extractor/cataract21_subvideo.py, process_video

`process_video` (lines 103-132) walks the per-frame label stream once; a writer
is opened whenever `phase != previous_phase`, recording `start_frame`, and the
previous writer is released.  The intervals so delimited are exactly the
run-length encoding of the label stream: `rleAux` carries the label of the
currently open run (`cur`), its start index, and the index of the next frame. -/

/-- One run-length scan step: `cur` labels the open run starting at `start`;
`idx` is the index of the head of `labels`.  A label change closes the open
run at `idx - 1` and opens a new one at `idx`; the run still open when the
stream ends closes at the last frame index. -/
def rleAux : List String → String → ℕ → ℕ → List (String × ℕ × ℕ)
  | [], cur, start, idx => [(cur, start, idx - 1)]
  | l :: rest, cur, start, idx =>
    if l = cur then rleAux rest cur start (idx + 1)
    else (cur, start, idx - 1) :: rleAux rest l idx (idx + 1)

/-- The interval structure produced by the per-frame scan of
src/Extractor/cataract21_subvideo.py `process_video`: run-length compression
of the (already normalized) label stream into `(label, startFrame, endFrame)`
triples.  An empty stream processes zero frames and yields no intervals. -/
def runLength : List String → List (String × ℕ × ℕ)
  | [] => []
  | l :: rest => rleAux rest l 0 1

/-! ### SegmentPlanner: occurrence counters of create_writer

All three variants keep `phase_counters = defaultdict(int)` and do
`phase_counters[phase] += 1` on entry to `create_writer`, using the value
after the increment. `assignOcc` threads that counter map (as a function,
initially `fun _ => 0`) through an interval label sequence and records the
counter value assigned to each interval. -/

/-- Occurrence assignment: for each label in order, increment that label's
counter and pair the label with the incremented value, as `create_writer`
does in src/Extractor/Cataract1k.py lines 70-83. -/
def assignOcc : List String → (String → ℕ) → List (String × ℕ)
  | [], _ => []
  | l :: rest, cnt =>
    (l, cnt l + 1) :: assignOcc rest (fun x => if x = l then cnt l + 1 else cnt x)

/-! ### TimelineBuilder: idle synthesis

Two idle-synthesis routines exist in the source.

`insert_idle_phases` (src/Extractor/Cataract1k.py lines 38-68) walks the
annotation rows, appending each row and, when
`next_row.frame - current_row.endFrame - 1 > 0`, an Idle row covering
`[endFrame + 1, next_row.frame - 1]`; the last row is appended unchanged.
It prepends nothing before the first row and takes no total frame count.

`process_phases` (src/phase_csv.py lines 29-57) additionally prepends an
Idle row `[0, firstStart - 1]` when the first (sorted) row starts after
frame 0; it fills interior gaps the same way and also takes no total frame
count.  (Its final re-sort by start frame is the identity on the already
sorted output produced from sorted, non-overlapping input, and is therefore
not re-modelled.) -/

/-- A row of the Cataract1k annotation CSV as used by `insert_idle_phases`:
`comment` (phase label), `frame`/`endFrame` bounds, `sec`/`endSec` times. -/
structure Row where
  comment : String
  frame : ℤ
  endFrame : ℤ
  sec : ℚ
  endSec : ℚ
deriving DecidableEq, Repr

/-- The gap-filling loop of `insert_idle_phases`: `cur` is the row about to be
appended; an Idle row is inserted after it exactly when the frame gap to the
next row is positive. -/
def insertIdleAux (cur : Row) : List Row → List Row
  | [] => [cur]
  | next :: rest =>
    if next.frame - cur.endFrame - 1 > 0 then
      cur :: ⟨"Idle", cur.endFrame + 1, next.frame - 1, cur.endSec, next.sec⟩
        :: insertIdleAux next rest
    else
      cur :: insertIdleAux next rest

/-- `insert_idle_phases` of src/Extractor/Cataract1k.py lines 38-68.
(On an empty data frame the Python `df.iloc[-1]` raises; the claims only
concern non-empty inputs, for which this equals the source loop.) -/
def insert_idle_phases : List Row → List Row
  | [] => []
  | r :: rest => insertIdleAux r rest

/-- A row of the phase CSV as used by `process_phases` of src/phase_csv.py:
phase name with explicit `Start Frame` / `End Frame` columns (the time
columns play no part in the frame-timeline claims). -/
structure PRow where
  phase : String
  startFrame : ℤ
  endFrame : ℤ
deriving DecidableEq, Repr

/-- The gap-filling loop of `process_phases` (src/phase_csv.py lines 41-57):
after each row, when `next_start - current_end > 1`, append an Idle row
covering `[current_end + 1, next_start - 1]`. -/
def processAux (cur : PRow) : List PRow → List PRow
  | [] => [cur]
  | next :: rest =>
    if next.startFrame - cur.endFrame > 1 then
      cur :: ⟨"Idle", cur.endFrame + 1, next.startFrame - 1⟩ :: processAux next rest
    else
      cur :: processAux next rest

/-- `process_phases` of src/phase_csv.py lines 29-57 (the timeline part):
prepend an Idle row `[0, firstStart - 1]` when the first row starts after
frame 0, then gap-fill between consecutive rows. -/
def process_phases : List PRow → List PRow
  | [] => []
  | r :: rest =>
    if r.startFrame > 0 then
      ⟨"Idle", 0, r.startFrame - 1⟩ :: processAux r rest
    else
      processAux r rest

/-! ### End-frame inference: src/Extractor/cataract101_subvideo.py, process_video

Lines 106-114: for each row, `end_frame = df.loc[idx + 1, 'FrameNo'] - 1`
when a next row exists, else `total_frames - 1`. -/

/-- The end frames `process_video` assigns to a list of start frames, in row
order: the next start minus one, and for the last row `totalFrames - 1`. -/
def inferEndFrames : List ℤ → ℤ → List ℤ
  | [], _ => []
  | [_], totalFrames => [totalFrames - 1]
  | _ :: b :: rest, totalFrames => (b - 1) :: inferEndFrames (b :: rest) totalFrames

/-! ### FrameSampler: src/frame_extractor.py, save_frames

Lines 56-77: with `S = end_frame - start_frame`, skip the phase when
`S ≤ 0`; otherwise `rate = max(S / max_frames, min_sampling_rate * fps)` and
the loop emits `int(start_frame + i * rate)` for `i = 0 .. max_frames - 1`,
breaking as soon as the value exceeds `end_frame`.  Python's `int()`
truncation equals `Int.floor` on the nonnegative index values arising here
(`start_frame ≥ 0`, `rate > 0`). -/

/-- The sampling loop body of `save_frames`: emit `⌊startFrame + i·rate⌋`,
stopping at the first index past `endFrame` or when the fuel
(the remaining iterations of `range(max_frames)`) runs out. -/
def sampleFrom (startFrame endFrame : ℤ) (rate : ℚ) : ℕ → ℕ → List ℤ
  | _, 0 => []
  | i, fuel + 1 =>
    if endFrame < ⌊(startFrame : ℚ) + (i : ℚ) * rate⌋ then []
    else ⌊(startFrame : ℚ) + (i : ℚ) * rate⌋ :: sampleFrom startFrame endFrame rate (i + 1) fuel

/-- The sampling rate `save_frames` settles on (lines 63-67):
`total_frames / max_frames`, raised to `min_sampling_rate * fps` when below
it — i.e. the maximum of the two. -/
def effectiveRate (startFrame endFrame : ℤ) (fps : ℚ) (maxFrames : ℕ) (minRate : ℚ) : ℚ :=
  max ((((endFrame - startFrame) : ℤ) : ℚ) / (maxFrames : ℚ)) (minRate * fps)

/-- The frame indices `save_frames` extracts for one phase interval. -/
def sampleIndices (startFrame endFrame : ℤ) (fps : ℚ) (maxFrames : ℕ) (minRate : ℚ) :
    List ℤ :=
  if endFrame - startFrame ≤ 0 then []
  else
    sampleFrom startFrame endFrame (effectiveRate startFrame endFrame fps maxFrames minRate)
      0 maxFrames

/-- `MAX_FRAMES` of src/frame_extractor.py line 8. -/
def MAX_FRAMES : ℕ := 15

/-- `MIN_SAMPLING_RATE` of src/frame_extractor.py line 9 (seconds). -/
def MIN_SAMPLING_RATE : ℚ := 3 / 10

/-! ### Output naming: create_writer in the three extractor variants -/

/-- Decimal digits of `n`, most significant first, with fuel
(`n + 1` suffices); mirrors Python's `%d` rendering of a nonnegative int. -/
def natDigitsAux : ℕ → ℕ → List Char
  | 0, _ => []
  | fuel + 1, n =>
    if n < 10 then [Nat.digitChar n]
    else natDigitsAux fuel (n / 10) ++ [Nat.digitChar (n % 10)]

/-- Python `str(n)` / `%d` for a natural number. -/
def natDecimal (n : ℕ) : String := String.mk (natDigitsAux (n + 1) n)

/-- Python `%04d`: the decimal rendering left-padded with zeros to width 4. -/
def natPad4 (n : ℕ) : String :=
  if (natDecimal n).length < 4 then
    String.mk (List.replicate (4 - (natDecimal n).length) '0') ++ natDecimal n
  else natDecimal n

/-- The occurrence suffix all three `create_writer`s append: nothing when the
(incremented) counter is 1, an underscore and the counter value from 2 on. -/
def occSuffix (counter : ℕ) : String :=
  if counter > 1 then "_" ++ natDecimal counter else ""

/-- Output filename of `create_writer` in src/Extractor/Cataract1k.py lines
74-83: `Cataract1k_ID%04d_{phase}` plus the occurrence suffix plus `.mp4`,
where `counter` is `phase_counters[phase]` after the increment. -/
def cataract1k_filename (phase : String) (caseNumber : ℕ) (counter : ℕ) : String :=
  "Cataract1k_ID" ++ natPad4 caseNumber ++ "_" ++ phase ++ occSuffix counter ++ ".mp4"

/-- Output filename of `PhaseVideoProcessor.create_writer` in
src/Extractor/cataract101_subvideo.py lines 54-62: `Cataract101_ID%04d_...`. -/
def cataract101_filename (phase : String) (caseNumber : ℕ) (counter : ℕ) : String :=
  "Cataract101_ID" ++ natPad4 caseNumber ++ "_" ++ phase ++ occSuffix counter ++ ".mp4"

/-- Output filename of `PhaseVideoProcessor.create_writer` in
src/Extractor/cataract21_subvideo.py lines 59-63: the f-string
`"Cataract21_ID00{case_number}_{phase}"` — a literal `"00"` followed by the
raw case-number string captured by the `case_(\d+)` regex, not `%04d`
padding. -/
def cataract21_filename (phase : String) (caseStr : String) (counter : ℕ) : String :=
  "Cataract21_ID00" ++ caseStr ++ "_" ++ phase ++ occSuffix counter ++ ".mp4"

/-- Destination path of `create_writer` in src/Extractor/Cataract1k.py lines
85-90: `os.path.join(output_base_dir, phase)` then the filename. -/
def cataract1k_path (outputBaseDir phase : String) (caseNumber counter : ℕ) : String :=
  outputBaseDir ++ "/" ++ phase ++ "/" ++ cataract1k_filename phase caseNumber counter

/-- The segment-planning loop of `process_video` + `create_writer` in
src/Extractor/Cataract1k.py: thread the per-case `phase_counters` map through
the interval labels in order, producing each interval's destination path. -/
def planAux (outputBaseDir : String) (caseNumber : ℕ) :
    List String → (String → ℕ) → List String
  | [], _ => []
  | l :: rest, cnt =>
    cataract1k_path outputBaseDir l caseNumber (cnt l + 1)
      :: planAux outputBaseDir caseNumber rest (fun x => if x = l then cnt l + 1 else cnt x)

/-- All destination paths planned for one case's interval-label sequence,
with every counter starting at 0 (`defaultdict(int)`). -/
def planSegments (outputBaseDir : String) (caseNumber : ℕ) (labels : List String) :
    List String :=
  planAux outputBaseDir caseNumber labels (fun _ => 0)

/-! ### VideoSplitter: per-segment frame loop of process_video

src/Extractor/Cataract1k.py lines 133-144 (and the near-identical
src/Extractor/cataract101_subvideo.py lines 117-128): for each interval, seek
to `start_frame` and read/write frames `start_frame .. end_frame`; a failed
read (`not ret`) breaks out of the inner loop only, the writer is released,
and the outer loop continues with the next interval. -/

/-- The frame indices of one segment, `start .. end` inclusive
(empty when `end < start`). -/
def segFrames (s e : ℤ) : List ℤ :=
  (List.range (e + 1 - s).toNat).map (fun i => s + (i : ℤ))

/-- The frames actually written for one segment when `decodeOk` tells which
absolute frame indices decode successfully: the inner loop writes frames in
order and breaks at the first failed read. -/
def writeSegment (decodeOk : ℤ → Bool) (s e : ℤ) : List ℤ :=
  (segFrames s e).takeWhile decodeOk

/-- The outer loop of `process_video`: one entry per interval, each the list
of frames its segment received; a decode failure never aborts the case. -/
def processCase (decodeOk : ℤ → Bool) (segs : List (ℤ × ℤ)) : List (List ℤ) :=
  segs.map (fun p => writeSegment decodeOk p.1 p.2)

/-- Modelled from the spec (§4.3, §7): the specified behaviour of
RunLengthCompressor on an empty stream, which the spec requires to fail with
`EmptyLabelStream`; on non-empty streams it agrees with the code's
`runLength`.  Used only to compare against the code, whose `process_video`
has no error path for an empty label stream. -/
def runLengthSpec (ls : List String) : Except String (List (String × ℕ × ℕ)) :=
  if ls = [] then Except.error "EmptyLabelStream" else Except.ok (runLength ls)

/-! ## Theorems -/

/-- A successful association-list lookup returns one of the list's values. -/
theorem lookup_mem_snd (l : List (String × String)) (p v : String)
    (h : l.lookup p = some v) : v ∈ l.map Prod.snd := by
  induction l with
  | nil => simp [List.lookup] at h
  | cons a rest ih =>
    obtain ⟨k, b⟩ := a
    rw [List.lookup] at h
    by_cases hpk : (p == k) = true
    · simp [hpk] at h
      simp [h]
    · simp only [Bool.not_eq_true] at hpk
      simp [hpk] at h
      simp [ih h]

/-- C10: phase-name normalization is idempotent — `map_phase_name` applied to
any of its own outputs returns that output unchanged, because every value of
`PHASE_MAPPING` either maps to itself or is not a key. -/
theorem map_phase_name_idem (p : String) :
    map_phase_name (map_phase_name p) = map_phase_name p := by
  unfold map_phase_name
  cases h : PHASE_MAPPING.lookup p with
  | none => simp [h]
  | some v =>
    simp only [h, Option.getD_some]
    have hv : v ∈ PHASE_MAPPING.map Prod.snd := lookup_mem_snd PHASE_MAPPING p v h
    simp only [PHASE_MAPPING, List.map_cons, List.map_nil, List.mem_cons,
      List.not_mem_nil, or_false] at hv
    rcases hv with rfl | rfl | rfl | rfl | rfl | rfl | rfl | rfl | rfl | rfl | rfl <;> decide

/-- C9 counterexample: on an empty label stream the code's per-frame scan
completes normally with no intervals, whereas the specified
RunLengthCompressor fails with `EmptyLabelStream`; the code's (always
successful) result differs from the specified one at the empty stream. -/
theorem runLength_empty_not_error :
    Except.ok (runLength []) ≠ runLengthSpec [] ∧ runLength [] = [] := by
  constructor
  · intro h
    simp [runLengthSpec] at h
  · rfl

/-- C9 (amended): given zero frames, the per-frame scan of `process_video`
(src/Extractor/cataract21_subvideo.py) processes no frames, opens no writer,
and completes silently with an empty interval list; no error is raised. -/
theorem runLength_empty_silent (ls : List String) (h : ls = []) :
    runLength ls = [] ∧ (runLength ls).length = 0 := by
  subst h
  exact ⟨rfl, rfl⟩

/-- C9 amended witness at the concrete empty stream. -/
theorem runLength_empty_silent_witness :
    ([] : List String) = [] ∧ runLength [] = [] ∧ (runLength []).length = 0 :=
  ⟨rfl, (runLength_empty_silent [] rfl).1, (runLength_empty_silent [] rfl).2⟩

/-- C7: segment naming is deterministic — the planner is a pure function of
the interval-label sequence, the case number and the output directory (the
source path is assembled from exactly these and the threaded counters, with
no clock or randomness), so two runs on equal inputs yield equal path lists
in equal order. -/
theorem planSegments_deterministic (ls1 ls2 : List String) (c : ℕ) (d : String)
    (h : ls1 = ls2) : planSegments d c ls1 = planSegments d c ls2 := by
  rw [h]

/-- C7 witness: two runs over the same concrete interval sequence. -/
theorem planSegments_deterministic_witness :
    planSegments "out" 7 ["A", "B", "A"] = planSegments "out" 7 ["A", "B", "A"] :=
  planSegments_deterministic ["A", "B", "A"] ["A", "B", "A"] 7 "out" rfl

/-- The occurrence indices assigned to the intervals labelled `l` are the
consecutive run `cnt l + 1, cnt l + 2, …`, one per occurrence of `l`. -/
theorem assignOcc_filter (ls : List String) :
    ∀ (cnt : String → ℕ) (l : String),
      ((assignOcc ls cnt).filter (fun p => p.1 == l)).map Prod.snd
        = List.range' (cnt l + 1) (ls.count l) := by
  induction ls with
  | nil => intro cnt l; simp [assignOcc]
  | cons a rest ih =>
    intro cnt l
    rw [assignOcc, List.count_cons, List.filter_cons]
    by_cases hal : a = l
    · subst hal
      simp only [beq_self_eq_true, if_true, List.map_cons, ih, if_pos rfl]
      rw [List.range'_succ]
    · have hne : (a == l) = false := by simpa using hal
      have hla : ¬ l = a := fun h => hal h.symm
      simp only [hne, Bool.false_eq_true, if_false, ih, if_neg hla, add_zero]

/-- C6: each label's occurrence counter starts at 0 and is incremented before
each assignment — on `[A, B, A, A]` the assigned indices are `1, 1, 2, 3`
(first occurrences unnumbered in the filename, numbered from the second on),
and in general the indices a label receives form the consecutive run
`1, 2, …` in interval order. -/
theorem occurrence_counters :
    assignOcc ["A", "B", "A", "A"] (fun _ => 0)
        = [("A", 1), ("B", 1), ("A", 2), ("A", 3)] ∧
    occSuffix 1 = "" ∧ occSuffix 2 = "_2" ∧ occSuffix 3 = "_3" ∧
    ∀ (ls : List String) (l : String),
      ((assignOcc ls (fun _ => 0)).filter (fun p => p.1 == l)).map Prod.snd
        = List.range' 1 (ls.count l) := by
  refine ⟨by decide, by decide, by decide, by decide, ?_⟩
  intro ls l
  exact assignOcc_filter ls (fun _ => 0) l

/-- C8: a decode failure mid-segment truncates only that segment and the case
continues — concretely, with frame 15 unreadable a `10..20` segment receives
exactly frames `10..14` and the following `21..30` segment is still written
in full; in general every interval still gets its (possibly truncated)
segment, and what a segment receives is always a prefix of its frame range. -/
theorem decode_failure_recovery :
    processCase (fun n => !(n == 15)) [(10, 20), (21, 30)]
        = [[10, 11, 12, 13, 14], [21, 22, 23, 24, 25, 26, 27, 28, 29, 30]] ∧
    (∀ (ok : ℤ → Bool) (segs : List (ℤ × ℤ)),
        (processCase ok segs).length = segs.length) ∧
    (∀ (ok : ℤ → Bool) (s e : ℤ), ∃ t, writeSegment ok s e ++ t = segFrames s e) := by
  refine ⟨by decide, ?_, ?_⟩
  · intro ok segs
    simp [processCase]
  · intro ok s e
    exact ⟨(segFrames s e).dropWhile ok, List.takeWhile_append_dropWhile ok (segFrames s e)⟩

/-- The run-length scan never produces an empty interval list from an open
run. -/
theorem rleAux_ne_nil (rest : List String) :
    ∀ (cur : String) (start idx : ℕ), rleAux rest cur start idx ≠ [] := by
  induction rest with
  | nil => intro cur start idx; simp [rleAux]
  | cons l r ih =>
    intro cur start idx
    rw [rleAux]
    split
    · exact ih cur start (idx + 1)
    · simp

/-- The first interval the scan emits is the run open when it started. -/
theorem rleAux_head (rest : List String) :
    ∀ (cur : String) (start idx : ℕ),
      ∃ e, (rleAux rest cur start idx).head? = some (cur, start, e) := by
  induction rest with
  | nil => intro cur start idx; exact ⟨idx - 1, rfl⟩
  | cons l r ih =>
    intro cur start idx
    rw [rleAux]
    split
    · exact ih cur start (idx + 1)
    · exact ⟨idx - 1, rfl⟩

/-- Adjacent intervals from the run-length scan are contiguous and carry
different labels. -/
theorem rleAux_chain (rest : List String) :
    ∀ (cur : String) (start idx : ℕ), 1 ≤ idx →
      List.Chain' (fun a b => a.2.2 + 1 = b.2.1 ∧ a.1 ≠ b.1) (rleAux rest cur start idx) := by
  induction rest with
  | nil => intro cur start idx _; simp [rleAux]
  | cons l r ih =>
    intro cur start idx hidx
    rw [rleAux]
    split
    · exact ih cur start (idx + 1) (by omega)
    · rename_i hne
      rw [List.chain'_cons']
      refine ⟨?_, ih l idx (idx + 1) (by omega)⟩
      intro y hy
      obtain ⟨e, he⟩ := rleAux_head r l idx (idx + 1)
      rw [he] at hy
      simp only [Option.mem_def, Option.some_inj] at hy
      subst hy
      refine ⟨?_, fun h => hne h.symm⟩
      show idx - 1 + 1 = idx
      omega

/-- The run open at the end of the scan closes at the last scanned index. -/
theorem rleAux_last (rest : List String) :
    ∀ (cur : String) (start idx : ℕ),
      ∃ c s, (rleAux rest cur start idx).getLast? = some (c, s, idx + rest.length - 1) := by
  induction rest with
  | nil => intro cur start idx; exact ⟨cur, start, rfl⟩
  | cons l r ih =>
    intro cur start idx
    rw [rleAux]
    split
    · obtain ⟨c, s, h⟩ := ih cur start (idx + 1)
      refine ⟨c, s, ?_⟩
      simp only [List.length_cons]
      rw [show idx + (r.length + 1) - 1 = (idx + 1) + r.length - 1 by omega]
      exact h
    · obtain ⟨c, s, h⟩ := ih l idx (idx + 1)
      refine ⟨c, s, ?_⟩
      cases hx : rleAux r l idx (idx + 1) with
      | nil => exact absurd hx (rleAux_ne_nil r l idx (idx + 1))
      | cons y ys =>
        rw [hx] at h
        rw [List.getLast?_cons_cons]
        simp only [List.length_cons]
        rw [show idx + (r.length + 1) - 1 = (idx + 1) + r.length - 1 by omega]
        exact h

/-- C5: the single left-to-right scan of `process_video` opens a new interval
exactly at label changes — on `[I, I, A, A, A, B]` it yields
`[(I,0,1), (A,2,4), (B,5,5)]`; in general the first interval starts at frame
0 with the first frame's label, adjacent intervals are contiguous with
differing labels, and the final open interval closes at the last available
frame index. -/
theorem run_length_compression :
    runLength ["I", "I", "A", "A", "A", "B"] = [("I", 0, 1), ("A", 2, 4), ("B", 5, 5)] ∧
    (∀ (l : String) (rest : List String),
        ∃ e, (runLength (l :: rest)).head? = some (l, 0, e)) ∧
    (∀ ls : List String,
        List.Chain' (fun a b => a.2.2 + 1 = b.2.1 ∧ a.1 ≠ b.1) (runLength ls)) ∧
    (∀ ls : List String, ls ≠ [] →
        ∃ c s, (runLength ls).getLast? = some (c, s, ls.length - 1)) := by
  refine ⟨by decide, ?_, ?_, ?_⟩
  · intro l rest
    exact rleAux_head rest l 0 1
  · intro ls
    cases ls with
    | nil => simp [runLength]
    | cons l rest => exact rleAux_chain rest l 0 1 (le_refl 1)
  · intro ls hne
    cases ls with
    | nil => exact absurd rfl hne
    | cons l rest =>
      obtain ⟨c, s, h⟩ := rleAux_last rest l 0 1
      refine ⟨c, s, ?_⟩
      rw [runLength, h]
      simp only [List.length_cons, Option.some_inj, Prod.mk.injEq]
      exact ⟨trivial, trivial, by omega⟩

/-- C5 witness: the general last-interval clause applied to the concrete
one-frame stream. -/
theorem run_length_compression_witness :
    (["X"] : List String) ≠ [] ∧
    ∃ c s, (runLength ["X"]).getLast? = some (c, s, 0) :=
  ⟨by decide, run_length_compression.2.2.2 ["X"] (by decide)⟩

/-- End-frame inference preserves the number of rows. -/
theorem inferEndFrames_length : ∀ (starts : List ℤ) (t : ℤ),
    (inferEndFrames starts t).length = starts.length
  | [], _ => rfl
  | [_], _ => rfl
  | _ :: b :: rest, t => by
    rw [inferEndFrames]
    simp only [List.length_cons]
    rw [inferEndFrames_length (b :: rest) t]
    simp

/-- Every non-final row's inferred end frame is the next row's start minus
one. -/
theorem inferEndFrames_getD : ∀ (starts : List ℤ) (t : ℤ) (i : ℕ),
    i + 1 < starts.length →
    (inferEndFrames starts t).getD i 0 = starts.getD (i + 1) 0 - 1
  | [], _, i, h => by simp at h
  | [_], _, i, h => by simp only [List.length_singleton] at h; omega
  | _ :: b :: rest, t, 0, _ => rfl
  | a :: b :: rest, t, i + 1, h => by
    rw [inferEndFrames]
    simp only [List.getD_cons_succ]
    exact inferEndFrames_getD (b :: rest) t i
      (by simp only [List.length_cons] at h ⊢; omega)

/-- The last row's inferred end frame is the total frame count minus one. -/
theorem inferEndFrames_getLast : ∀ (starts : List ℤ) (t : ℤ), starts ≠ [] →
    (inferEndFrames starts t).getLast? = some (t - 1)
  | [], _, h => absurd rfl h
  | [_], _, _ => rfl
  | _ :: b :: rest, t, _ => by
    rw [inferEndFrames]
    cases hx : inferEndFrames (b :: rest) t with
    | nil =>
      have hl := inferEndFrames_length (b :: rest) t
      rw [hx] at hl
      simp at hl
    | cons y ys =>
      rw [List.getLast?_cons_cons, ← hx]
      exact inferEndFrames_getLast (b :: rest) t (by simp)

/-- C4: `process_video` of src/Extractor/cataract101_subvideo.py assigns
`endFrame[i] = startFrame[i+1] - 1` to every row but the last, and
`totalFrames - 1` to the last row. -/
theorem end_frame_inference (starts : List ℤ) (t : ℤ) :
    (inferEndFrames starts t).length = starts.length ∧
    (∀ i : ℕ, i + 1 < starts.length →
        (inferEndFrames starts t).getD i 0 = starts.getD (i + 1) 0 - 1) ∧
    (starts ≠ [] → (inferEndFrames starts t).getLast? = some (t - 1)) :=
  ⟨inferEndFrames_length starts t,
   fun i h => inferEndFrames_getD starts t i h,
   fun h => inferEndFrames_getLast starts t h⟩

/-- A number below `10 ^ (k + 1)` renders to at most `k + 1` decimal
digits. -/
theorem natDigitsAux_length_le : ∀ (fuel n k : ℕ), n < fuel → n < 10 ^ (k + 1) →
    (natDigitsAux fuel n).length ≤ k + 1
  | 0, n, _, h, _ => absurd h (by omega)
  | fuel + 1, n, k, h, hk => by
    rw [natDigitsAux]
    split
    · simp
    · rename_i h10
      push_neg at h10
      cases k with
      | zero =>
        rw [pow_one] at hk
        omega
      | succ k2 =>
        simp only [List.length_append, List.length_singleton]
        have hd : n / 10 < fuel := by omega
        have hd2 : n / 10 < 10 ^ (k2 + 1) := by
          rw [Nat.div_lt_iff_lt_mul (by norm_num)]
          calc n < 10 ^ (k2 + 1 + 1) := hk
          _ = 10 ^ (k2 + 1) * 10 := pow_succ 10 (k2 + 1)
        have hrec := natDigitsAux_length_le fuel (n / 10) k2 hd hd2
        omega

/-- A case number below 10000 renders to at most 4 decimal digits. -/
theorem natDecimal_length_le (n : ℕ) (h : n < 10000) : (natDecimal n).length ≤ 4 := by
  have h4 : n < 10 ^ (3 + 1) := lt_of_lt_of_eq h (by norm_num)
  exact natDigitsAux_length_le (n + 1) n 3 (by omega) h4

/-- Python `%04d` really pads a case number below 10000 to exactly 4
characters. -/
theorem natPad4_length (n : ℕ) (h : n < 10000) : (natPad4 n).length = 4 := by
  have hlen : (natDecimal n).length ≤ 4 := natDecimal_length_le n h
  rw [natPad4]
  split
  · rw [String.length_append]
    have hrep : (String.mk (List.replicate (4 - (natDecimal n).length) '0')).length
        = 4 - (natDecimal n).length := by
      show (List.replicate (4 - (natDecimal n).length) '0').length = _
      exact List.length_replicate _ _
    rw [hrep]
    omega
  · omega

/-- C3 counterexample: `create_writer` of src/Extractor/cataract21_subvideo.py
builds `"Cataract21_ID00" + case_number`, so case `123` yields
`Cataract21_ID00123_Phaco.mp4` — a 5-character ID field — and not the
4-digit-padded `Cataract21_ID0123_Phaco.mp4` required by the claimed
template. -/
theorem filename_counterexample :
    cataract21_filename "Phaco" "123" 1 = "Cataract21_ID00123_Phaco.mp4" ∧
    cataract21_filename "Phaco" "123" 1 ≠ "Cataract21_ID0123_Phaco.mp4" := by
  constructor <;> decide

/-- C3 (amended): Cataract1k and Cataract101 follow
`{Tag}_ID{case:04d}_{label}[_{occ}].mp4` with the case number padded to
exactly 4 digits for case numbers below 10000, the occurrence suffix absent
for a label's first occurrence and present from the second on; the
Cataract21 variant instead prefixes a literal `ID00` to the raw case-number
string (so its ID field is 4 digits wide only for 2-digit case numbers). -/
theorem filename_format (phase caseStr : String) (c k : ℕ) (hc : c < 10000)
    (hk : 2 ≤ k) :
    (natPad4 c).length = 4 ∧
    cataract1k_filename phase c 1
      = "Cataract1k_ID" ++ natPad4 c ++ "_" ++ phase ++ ".mp4" ∧
    cataract1k_filename phase c k
      = "Cataract1k_ID" ++ natPad4 c ++ "_" ++ phase ++ "_" ++ natDecimal k ++ ".mp4" ∧
    cataract101_filename phase c 1
      = "Cataract101_ID" ++ natPad4 c ++ "_" ++ phase ++ ".mp4" ∧
    cataract101_filename phase c k
      = "Cataract101_ID" ++ natPad4 c ++ "_" ++ phase ++ "_" ++ natDecimal k ++ ".mp4" ∧
    cataract21_filename phase caseStr 1
      = "Cataract21_ID00" ++ caseStr ++ "_" ++ phase ++ ".mp4" ∧
    cataract21_filename phase caseStr k
      = "Cataract21_ID00" ++ caseStr ++ "_" ++ phase ++ "_" ++ natDecimal k ++ ".mp4" := by
  refine ⟨natPad4_length c hc, ?_, ?_, ?_, ?_, ?_, ?_⟩
  · simp [cataract1k_filename, occSuffix]
  · rw [cataract1k_filename, occSuffix, if_pos (by omega)]
    simp [String.append_assoc]
  · simp [cataract101_filename, occSuffix]
  · rw [cataract101_filename, occSuffix, if_pos (by omega)]
    simp [String.append_assoc]
  · simp [cataract21_filename, occSuffix]
  · rw [cataract21_filename, occSuffix, if_pos (by omega)]
    simp [String.append_assoc]

/-- C3 amended witness at case number 123, label `Phaco`, second
occurrence. -/
theorem filename_format_witness :
    123 < 10000 ∧ 2 ≤ 2 ∧ (natPad4 123).length = 4 ∧
    cataract1k_filename "Phaco" 123 2
      = "Cataract1k_ID" ++ natPad4 123 ++ "_" ++ "Phaco" ++ "_" ++ natDecimal 2 ++ ".mp4" :=
  ⟨by decide, by decide,
   (filename_format "Phaco" "7" 123 2 (by decide) (by decide)).1,
   (filename_format "Phaco" "7" 123 2 (by decide) (by decide)).2.2.1⟩

/-- The gap-fill loop of `process_phases` always emits the current row
first. -/
theorem processAux_head (cur : PRow) (rest : List PRow) :
    (processAux cur rest).head? = some cur := by
  cases rest with
  | nil => rfl
  | cons n r =>
    rw [processAux]
    split <;> rfl

/-- The gap-fill loop of `process_phases` never returns an empty timeline. -/
theorem processAux_ne_nil (cur : PRow) (rest : List PRow) : processAux cur rest ≠ [] := by
  cases rest with
  | nil => simp [processAux]
  | cons n r =>
    rw [processAux]
    split <;> simp

/-- Gap filling makes the `process_phases` timeline gap-free, provided the
input rows are sorted with disjoint frame ranges. -/
theorem processAux_chain : ∀ (rest : List PRow) (cur : PRow),
    List.Chain' (fun a b => a.endFrame < b.startFrame) (cur :: rest) →
    List.Chain' (fun a b => a.endFrame + 1 = b.startFrame) (processAux cur rest)
  | [], cur, _ => by simp [processAux]
  | next :: rest, cur, h => by
    rw [List.chain'_cons] at h
    obtain ⟨h1, h2⟩ := h
    rw [processAux]
    split
    · rw [List.chain'_cons']
      constructor
      · intro y hy
        rw [List.head?_cons, Option.mem_def, Option.some_inj] at hy
        subst hy
        rfl
      · rw [List.chain'_cons']
        refine ⟨?_, processAux_chain rest next h2⟩
        intro y hy
        rw [processAux_head next rest, Option.mem_def, Option.some_inj] at hy
        subst hy
        show (next.startFrame - 1) + 1 = next.startFrame
        ring
    · rename_i hgap
      push_neg at hgap
      rw [List.chain'_cons']
      refine ⟨?_, processAux_chain rest next h2⟩
      intro y hy
      rw [processAux_head next rest, Option.mem_def, Option.some_inj] at hy
      subst hy
      show cur.endFrame + 1 = next.startFrame
      omega

/-- Gap filling never changes the last row of the `process_phases`
timeline. -/
theorem processAux_getLast : ∀ (rest : List PRow) (cur : PRow),
    (processAux cur rest).getLast? = (cur :: rest).getLast?
  | [], _ => rfl
  | next :: rest, cur => by
    have hrec := processAux_getLast rest next
    rw [processAux]
    split
    · rw [List.getLast?_cons_cons]
      cases hx : processAux next rest with
      | nil => exact absurd hx (processAux_ne_nil next rest)
      | cons y ys =>
        rw [List.getLast?_cons_cons, ← hx, hrec, List.getLast?_cons_cons]
    · cases hx : processAux next rest with
      | nil => exact absurd hx (processAux_ne_nil next rest)
      | cons y ys =>
        rw [List.getLast?_cons_cons, ← hx, hrec, List.getLast?_cons_cons]

/-- The gap-fill loop of `insert_idle_phases` always emits the current row
first. -/
theorem insertIdleAux_head (cur : Row) (rest : List Row) :
    (insertIdleAux cur rest).head? = some cur := by
  cases rest with
  | nil => rfl
  | cons n r =>
    rw [insertIdleAux]
    split <;> rfl

/-- The gap-fill loop of `insert_idle_phases` never returns an empty
timeline. -/
theorem insertIdleAux_ne_nil (cur : Row) (rest : List Row) :
    insertIdleAux cur rest ≠ [] := by
  cases rest with
  | nil => simp [insertIdleAux]
  | cons n r =>
    rw [insertIdleAux]
    split <;> simp

/-- Gap filling makes the `insert_idle_phases` timeline gap-free, provided
the input rows are sorted with disjoint frame ranges. -/
theorem insertIdleAux_chain : ∀ (rest : List Row) (cur : Row),
    List.Chain' (fun a b => a.endFrame < b.frame) (cur :: rest) →
    List.Chain' (fun a b => a.endFrame + 1 = b.frame) (insertIdleAux cur rest)
  | [], cur, _ => by simp [insertIdleAux]
  | next :: rest, cur, h => by
    rw [List.chain'_cons] at h
    obtain ⟨h1, h2⟩ := h
    rw [insertIdleAux]
    split
    · rw [List.chain'_cons']
      constructor
      · intro y hy
        rw [List.head?_cons, Option.mem_def, Option.some_inj] at hy
        subst hy
        rfl
      · rw [List.chain'_cons']
        refine ⟨?_, insertIdleAux_chain rest next h2⟩
        intro y hy
        rw [insertIdleAux_head next rest, Option.mem_def, Option.some_inj] at hy
        subst hy
        show (next.frame - 1) + 1 = next.frame
        ring
    · rename_i hgap
      push_neg at hgap
      rw [List.chain'_cons']
      refine ⟨?_, insertIdleAux_chain rest next h2⟩
      intro y hy
      rw [insertIdleAux_head next rest, Option.mem_def, Option.some_inj] at hy
      subst hy
      show cur.endFrame + 1 = next.frame
      omega

/-- Gap filling never changes the last row of the `insert_idle_phases`
timeline. -/
theorem insertIdleAux_getLast : ∀ (rest : List Row) (cur : Row),
    (insertIdleAux cur rest).getLast? = (cur :: rest).getLast?
  | [], _ => rfl
  | next :: rest, cur => by
    have hrec := insertIdleAux_getLast rest next
    rw [insertIdleAux]
    split
    · rw [List.getLast?_cons_cons]
      cases hx : insertIdleAux next rest with
      | nil => exact absurd hx (insertIdleAux_ne_nil next rest)
      | cons y ys =>
        rw [List.getLast?_cons_cons, ← hx, hrec, List.getLast?_cons_cons]
    · cases hx : insertIdleAux next rest with
      | nil => exact absurd hx (insertIdleAux_ne_nil next rest)
      | cons y ys =>
        rw [List.getLast?_cons_cons, ← hx, hrec, List.getLast?_cons_cons]

/-- C1 counterexample: neither idle-synthesis routine consumes a total frame
count, and `insert_idle_phases` never prepends a leading Idle — on the
spec's own example rows `(X,10,20), (Y,25,30)` the first built interval
starts at frame 10, not 0.  Moreover on merely start-sorted (overlapping)
rows `(X,0,10), (Y,5,8)`, `process_phases` produces a timeline violating
`endFrame[i] + 1 = startFrame[i+1]`. -/
theorem idle_synthesis_counterexample :
    (insert_idle_phases [⟨"X", 10, 20, 0, 1⟩, ⟨"Y", 25, 30, 2, 3⟩]).head?.map Row.frame
        = some 10 ∧
    (10 : ℤ) ≠ 0 ∧
    ¬ List.Chain' (fun a b => a.endFrame + 1 = b.startFrame)
        (process_phases [⟨"X", 0, 10⟩, ⟨"Y", 5, 8⟩]) := by
  refine ⟨rfl, by decide, ?_⟩
  intro h
  have hv : process_phases [⟨"X", 0, 10⟩, ⟨"Y", 5, 8⟩]
      = [⟨"X", 0, 10⟩, ⟨"Y", 5, 8⟩] := rfl
  rw [hv, List.chain'_cons] at h
  have h1 : (10 : ℤ) + 1 = 5 := h.1
  omega

/-- C1 (amended): from a non-empty row sequence sorted by start frame with
disjoint frame ranges, both idle-synthesis routines build a timeline in
which every consecutive pair satisfies `endFrame[i] + 1 = startFrame[i+1]`
and whose last interval is the last input row (so the timeline ends at the
last row's end frame — no total frame count is consumed).  `process_phases`
starts the timeline at frame 0, prepending an Idle interval when the first
row starts later; `insert_idle_phases` prepends nothing and starts at the
first row's own start frame. -/
theorem idle_synthesis_timeline :
    (∀ (r : PRow) (rest : List PRow),
      List.Chain' (fun a b => a.endFrame < b.startFrame) (r :: rest) →
      0 ≤ r.startFrame →
      List.Chain' (fun a b => a.endFrame + 1 = b.startFrame) (process_phases (r :: rest)) ∧
      (process_phases (r :: rest)).head?.map PRow.startFrame = some 0 ∧
      (process_phases (r :: rest)).getLast? = (r :: rest).getLast?) ∧
    (∀ (r : Row) (rest : List Row),
      List.Chain' (fun a b => a.endFrame < b.frame) (r :: rest) →
      List.Chain' (fun a b => a.endFrame + 1 = b.frame) (insert_idle_phases (r :: rest)) ∧
      (insert_idle_phases (r :: rest)).head? = some r ∧
      (insert_idle_phases (r :: rest)).getLast? = (r :: rest).getLast?) := by
  constructor
  · intro r rest hs h0
    rw [process_phases]
    split
    · rename_i hpos
      refine ⟨?_, ?_, ?_⟩
      · rw [List.chain'_cons']
        refine ⟨?_, processAux_chain rest r hs⟩
        intro y hy
        rw [processAux_head r rest, Option.mem_def, Option.some_inj] at hy
        subst hy
        show (r.startFrame - 1) + 1 = r.startFrame
        ring
      · rfl
      · cases hx : processAux r rest with
        | nil => exact absurd hx (processAux_ne_nil r rest)
        | cons y ys =>
          rw [List.getLast?_cons_cons, ← hx]
          exact processAux_getLast rest r
    · rename_i hneg
      push_neg at hneg
      have hz : r.startFrame = 0 := le_antisymm hneg h0
      refine ⟨processAux_chain rest r hs, ?_, processAux_getLast rest r⟩
      rw [processAux_head r rest]
      simp [hz]
  · intro r rest hs
    rw [insert_idle_phases]
    exact ⟨insertIdleAux_chain rest r hs, insertIdleAux_head r rest,
      insertIdleAux_getLast rest r⟩

/-- C1 amended witness: the spec's example rows, with the leading gap
`[0, 9]` and the interior gap `[21, 24]` filled by `process_phases`. -/
theorem idle_synthesis_timeline_witness :
    List.Chain' (fun a b => a.endFrame < b.startFrame)
      [(⟨"X", 10, 20⟩ : PRow), ⟨"Y", 25, 30⟩] ∧
    (0 : ℤ) ≤ 10 ∧
    List.Chain' (fun a b => a.endFrame + 1 = b.startFrame)
      (process_phases [⟨"X", 10, 20⟩, ⟨"Y", 25, 30⟩]) ∧
    (process_phases [(⟨"X", 10, 20⟩ : PRow), ⟨"Y", 25, 30⟩]).head?.map PRow.startFrame
      = some 0 :=
  ⟨List.chain'_cons.mpr ⟨by decide, List.chain'_singleton _⟩, by decide,
   (idle_synthesis_timeline.1 ⟨"X", 10, 20⟩ [⟨"Y", 25, 30⟩]
      (List.chain'_cons.mpr ⟨by decide, List.chain'_singleton _⟩) (by decide)).1,
   (idle_synthesis_timeline.1 ⟨"X", 10, 20⟩ [⟨"Y", 25, 30⟩]
      (List.chain'_cons.mpr ⟨by decide, List.chain'_singleton _⟩) (by decide)).2.1⟩

/-- The sampling loop runs at most `fuel` iterations (the `range(max_frames)`
bound). -/
theorem sampleFrom_length_le (s e : ℤ) (r : ℚ) : ∀ (fuel i : ℕ),
    (sampleFrom s e r i fuel).length ≤ fuel := by
  intro fuel
  induction fuel with
  | zero => intro i; simp [sampleFrom]
  | succ f ih =>
    intro i
    rw [sampleFrom]
    split
    · simp
    · simpa using Nat.succ_le_succ (ih (i + 1))

/-- With a nonnegative rate, every sampled index stays inside
`[startFrame, endFrame]`. -/
theorem sampleFrom_mem (s e : ℤ) (r : ℚ) (hr : 0 ≤ r) : ∀ (fuel i : ℕ) (x : ℤ),
    x ∈ sampleFrom s e r i fuel → s ≤ x ∧ x ≤ e := by
  intro fuel
  induction fuel with
  | zero => intro i x hx; simp [sampleFrom] at hx
  | succ f ih =>
    intro i x hx
    rw [sampleFrom] at hx
    split at hx
    · simp at hx
    · rename_i hguard
      push_neg at hguard
      rcases List.mem_cons.mp hx with rfl | hx2
      · refine ⟨?_, hguard⟩
        rw [Int.le_floor]
        exact le_add_of_nonneg_right (mul_nonneg (Nat.cast_nonneg i) hr)
      · exact ih (i + 1) x hx2

/-- The first emitted sample is the floor of the current loop position. -/
theorem sampleFrom_head (s e : ℤ) (r : ℚ) (fuel i : ℕ) (x : ℤ)
    (hx : (sampleFrom s e r i fuel).head? = some x) :
    x = ⌊(s : ℚ) + (i : ℚ) * r⌋ := by
  cases fuel with
  | zero => simp [sampleFrom] at hx
  | succ f =>
    rw [sampleFrom] at hx
    split at hx
    · simp at hx
    · rw [List.head?_cons, Option.some_inj] at hx
      exact hx.symm

/-- Consecutive sampled indices are at least `⌊rate⌋` frames apart. -/
theorem sampleFrom_chain (s e : ℤ) (r : ℚ) : ∀ (fuel i : ℕ),
    List.Chain' (fun a b => a + ⌊r⌋ ≤ b) (sampleFrom s e r i fuel) := by
  intro fuel
  induction fuel with
  | zero => intro i; simp [sampleFrom]
  | succ f ih =>
    intro i
    rw [sampleFrom]
    split
    · simp
    · rw [List.chain'_cons']
      refine ⟨?_, ih (i + 1)⟩
      intro y hy
      rw [Option.mem_def] at hy
      have hy2 := sampleFrom_head s e r f (i + 1) y hy
      subst hy2
      have hfl : ⌊(s : ℚ) + (i : ℚ) * r⌋ + ⌊r⌋ ≤ ⌊((s : ℚ) + (i : ℚ) * r) + r⌋ := by
        rw [Int.le_floor]
        push_cast
        exact add_le_add (Int.floor_le _) (Int.floor_le _)
      have heq : ((s : ℚ) + (i : ℚ) * r) + r = (s : ℚ) + ((i : ℕ) + 1 : ℕ) * r := by
        push_cast
        ring
      rw [heq] at hfl
      exact hfl

/-- C2 counterexample: with `fps = 1`, an interval of span 5 gives effective
rate `max(5/15, 0.3·1) = 1/3 < 1`, and the truncating `int()` makes the
sampler emit each of `0..4` three times — the sampled sequence is not
strictly increasing even though span and fps are positive. -/
theorem frame_sampler_counterexample :
    (0 : ℚ) < 1 ∧ (0 : ℚ) < 3 / 10 ∧ (0 : ℤ) < 5 - 0 ∧
    ¬ List.Chain' (fun a b => a < b) (sampleIndices 0 5 1 15 (3 / 10)) := by
  refine ⟨by norm_num, by norm_num, by norm_num, ?_⟩
  have hval : sampleIndices 0 5 1 15 (3 / 10)
      = [0, 0, 0, 1, 1, 1, 2, 2, 2, 3, 3, 3, 4, 4, 4] := by
    rw [sampleIndices]
    norm_num [sampleFrom, effectiveRate]
  rw [hval]
  intro h
  rw [List.chain'_cons] at h
  exact absurd h.1 (lt_irrefl 0)

/-- C2 (amended): for positive `fps` and `minRate` the sampler emits at most
`maxFrames` indices, all within `[startFrame, endFrame]`, in nondecreasing
order with consecutive indices at least `⌊rate⌋` apart where
`rate = max(span/maxFrames, minRate·fps)`; the sequence is strictly
increasing whenever `rate ≥ 1` (truncation to integer frame numbers can
repeat indices when `rate < 1`). -/
theorem frame_sampler (startFrame endFrame : ℤ) (fps : ℚ) (maxFrames : ℕ) (minRate : ℚ)
    (hfps : 0 < fps) (hmin : 0 < minRate) :
    (sampleIndices startFrame endFrame fps maxFrames minRate).length ≤ maxFrames ∧
    (∀ x ∈ sampleIndices startFrame endFrame fps maxFrames minRate,
        startFrame ≤ x ∧ x ≤ endFrame) ∧
    List.Chain'
      (fun a b => a + ⌊effectiveRate startFrame endFrame fps maxFrames minRate⌋ ≤ b)
      (sampleIndices startFrame endFrame fps maxFrames minRate) ∧
    (1 ≤ effectiveRate startFrame endFrame fps maxFrames minRate →
      List.Chain' (fun a b => a < b) (sampleIndices startFrame endFrame fps maxFrames minRate)) := by
  have hr : 0 ≤ effectiveRate startFrame endFrame fps maxFrames minRate :=
    le_trans (le_of_lt (mul_pos hmin hfps)) (le_max_right _ _)
  refine ⟨?_, ?_, ?_, ?_⟩
  · rw [sampleIndices]
    split
    · simp
    · exact sampleFrom_length_le startFrame endFrame _ maxFrames 0
  · intro x hx
    rw [sampleIndices] at hx
    split at hx
    · simp at hx
    · exact sampleFrom_mem startFrame endFrame _ hr maxFrames 0 x hx
  · rw [sampleIndices]
    split
    · simp
    · exact sampleFrom_chain startFrame endFrame _ maxFrames 0
  · intro hrate1
    have hfl1 : (1 : ℤ) ≤ ⌊effectiveRate startFrame endFrame fps maxFrames minRate⌋ := by
      rw [Int.le_floor]
      exact_mod_cast hrate1
    have hch : List.Chain'
        (fun a b => a + ⌊effectiveRate startFrame endFrame fps maxFrames minRate⌋ ≤ b)
        (sampleIndices startFrame endFrame fps maxFrames minRate) := by
      rw [sampleIndices]
      split
      · simp
      · exact sampleFrom_chain startFrame endFrame _ maxFrames 0
    exact List.Chain'.imp (fun a b hab => by omega) hch

/-- C2 amended witness: the bound clause at a concrete interval and rate. -/
theorem frame_sampler_witness :
    (0 : ℚ) < 1 ∧ (sampleIndices 0 100 1 15 1).length ≤ 15 :=
  ⟨one_pos, (frame_sampler 0 100 1 15 1 one_pos one_pos).1⟩

/-- C4 witness at the concrete start frames `[0, 10, 50]` with 100 total
frames. -/
theorem end_frame_inference_witness :
    (0 : ℕ) + 1 < ([0, 10, 50] : List ℤ).length ∧
    (inferEndFrames [0, 10, 50] 100).getD 0 0 = ([0, 10, 50] : List ℤ).getD 1 0 - 1 ∧
    ([0, 10, 50] : List ℤ) ≠ [] ∧
    (inferEndFrames [0, 10, 50] 100).getLast? = some (100 - 1) :=
  ⟨by decide,
   (end_frame_inference [0, 10, 50] 100).2.1 0 (by decide),
   by decide,
   (end_frame_inference [0, 10, 50] 100).2.2 (by decide)⟩

end VideoFrames
